import Mathlib

/-!
Verification of the release-asset acquisition and extraction pipeline of the
`hoho` repository (`src/hoho/decompiler.py`, `src/hoho/glb.py`).

Strings are embedded as `List Char`.  Python's `str.lower()` is embedded
character-wise over the ASCII range (`pyLower`), which is exact for every
string constant of the repository's configuration.  Filesystem and process
effects are embedded as explicit data: the analysis runner returns the list
of files it writes, the per-target pipeline returns the list of effectful
events it performs, and directory creation acts on an explicit list of
existing directories.
-/

/-- ASCII lowering, the character-wise action of Python `str.lower()` on the
ASCII range (`src/hoho/decompiler.py` lowers asset names before matching). -/
def pyLower (c : Char) : Char :=
  if 'A' ≤ c ∧ c ≤ 'Z' then Char.ofNat (c.toNat + 32) else c

/-- `str.lower()` on a whole string. -/
def pyLowerStr (s : List Char) : List Char := s.map pyLower

/-- Index of the last occurrence of `'.'` in a list of characters, the
embedding of Python `name.rfind(".")` (`None` for `-1`, no occurrence). -/
def lastDotIdx : List Char → Option Nat
  | [] => none
  | c :: cs =>
    match lastDotIdx cs with
    | some i => some (i + 1)
    | none => if c = '.' then some 0 else none

/-- Embedding of `pathlib.PurePath.suffix` applied to a final path
component: `name[i:]` for the last `i` with `name[i] = '.'`, provided
`0 < i < len(name) - 1`, else the empty string. -/
def pySuffix (name : List Char) : List Char :=
  match lastDotIdx name with
  | some i => if 0 < i ∧ i < name.length - 1 then name.drop i else []
  | none => []

/-- `ARCHIVE_EXTENSIONS` from `src/hoho/glb.py`. -/
def ARCHIVE_EXTENSIONS : List (List Char) :=
  [".tar.gz".data, ".zip".data, ".tar".data, ".tar.xz".data, ".7z".data]

/-- `DECOMPILER_TOOLS` from `src/hoho/glb.py`: each entry is a command
prefix, the tool's executable name first. -/
def DECOMPILER_TOOLS : List (List (List Char)) :=
  [["strings".data],
   ["objdump".data, "-D".data],
   ["nm".data],
   ["readelf".data, "-a".data],
   ["hexdump".data, "-C".data]]

/-- The external command `extract_with_unpack_tools` can invoke. -/
inductive UnpackCmd
  | ouch
  | tar
  | unzip
deriving DecidableEq

/-- Which command `extract_with_unpack_tools` (`src/hoho/decompiler.py`
lines 41-55) invokes: `ouch` whenever `shutil.which("ouch")` succeeds, else
`tar` when `archive_path.suffix == ".tar.gz"`, else `unzip` when
`archive_path.suffix == ".zip"`, else nothing (the `return False` branch). -/
def extractCmd (hasOuch : Bool) (name : List Char) : Option UnpackCmd :=
  if hasOuch then some .ouch
  else if pySuffix name = ".tar.gz".data then some .tar
  else if pySuffix name = ".zip".data then some .unzip
  else none

/-- Result of `extract_with_unpack_tools`: `False` when no tool/extension
combination matches, else the invoked tool's success (`subprocess.run` with
`check=True` raises on a non-zero exit, caught and turned into `False`). -/
def extract_with_unpack_tools (hasOuch : Bool) (toolOk : UnpackCmd → Bool)
    (name : List Char) : Bool :=
  match extractCmd hasOuch name with
  | some c => toolOk c
  | none => false

/-- Host state seen by `decompile_binary`: which executables `shutil.which`
finds, and each command's outcome (`some stdout` for exit zero with that
captured standard output, `none` for a non-zero exit). -/
structure AnalysisEnv where
  present : List Char → Bool
  run : List (List Char) → Option (List Char)

/-- The command lines `decompile_binary` builds:
`[[*tool, str(binary_path)] for tool in DECOMPILER_TOOLS]`. -/
def analysisCmds (binary : List Char) : List (List (List Char)) :=
  DECOMPILER_TOOLS.map (fun t => t ++ [binary])

/-- The `(file name, content)` pairs the loop of `decompile_binary`
(`src/hoho/decompiler.py` lines 64-74) writes into the output directory: a
tool absent from PATH is skipped, a present tool that exits zero yields one
file `f"{cmd[0]}_output.txt"` holding its captured stdout, a present tool
that exits non-zero only prints a warning and yields no file. -/
def toolStep (env : AnalysisEnv) (cmd : List (List Char)) :
    Option (List Char × List Char) :=
  if env.present (cmd.headD []) then
    match env.run cmd with
    | some out => some (cmd.headD [] ++ "_output.txt".data, out)
    | none => none
  else none

/-- All files the loop writes, in tool order. -/
def toolOutputs (env : AnalysisEnv) (binary : List Char) :
    List (List Char × List Char) :=
  (analysisCmds binary).filterMap (toolStep env)

/-- Everything `decompile_binary` does: it creates the output directory
(`output_dir.mkdir(exist_ok=True, parents=True)`), writes `toolOutputs`
into it, and returns `True` unconditionally. -/
structure DecompileResult where
  dirsCreated : List (List Char)
  files : List (List Char × List Char)
  retval : Bool
deriving DecidableEq

/-- Embedding of `decompile_binary` (`src/hoho/decompiler.py` lines 57-76). -/
def decompile_binary (env : AnalysisEnv) (binary outdir : List Char) :
    DecompileResult :=
  { dirsCreated := [outdir], files := toolOutputs env binary, retval := true }

/-- Python's substring operator `needle in hay` on strings. -/
def strIn (needle hay : List Char) : Bool := decide (needle <:+: hay)

/-- The asset-selection test of `process_cli_agent` line 91:
`any(platform in asset_name for platform in config["platforms"])`, where
`asset_name` is the lower-cased asset name. -/
def matchesPlatform (platforms : List (List Char)) (name : List Char) : Bool :=
  platforms.any (fun p => strIn p (pyLowerStr name))

/-- The archive-routing test of `process_cli_agent` line 98:
`any(ext in asset_name for ext in ARCHIVE_EXTENSIONS)`. -/
def isArchiveName (name : List Char) : Bool :=
  ARCHIVE_EXTENSIONS.any (fun e => strIn e (pyLowerStr name))

/-- Specification-side predicate: `p` occurs in `n` as a case-insensitive
substring (some contiguous run of `n` equals `p` up to ASCII case). -/
def caseInsensSub (p n : List Char) : Prop :=
  pyLowerStr p <:+: pyLowerStr n

instance (p n : List Char) : Decidable (caseInsensSub p n) := by
  unfold caseInsensSub; infer_instance

/-- Outcome of `fetch_github_releases` (`src/hoho/decompiler.py` lines
24-28) as its caller sees it: `ok assets` when the JSON body carries an
asset list, `okNoAssets` when the body parses but has no `assets` field
(GitHub answers non-success statuses with such a JSON body, and
`release_data.get("assets", [])` yields `[]`), `netError` when the HTTP
call raises (the exception propagates to the caller's `try`). -/
inductive FetchOutcome
  | ok (assets : List (List Char))
  | okNoAssets
  | netError
deriving DecidableEq

/-- Host and network state seen by one run of `process_cli_agent`. -/
structure PipelineEnv where
  fetch : FetchOutcome
  downloadOk : List Char → Bool
  hasOuch : Bool
  toolOk : UnpackCmd → Bool
  executables : List (List Char)

/-- Effectful steps of the per-target pipeline, in program order. -/
inductive Event
  | download (name : List Char)
  | extractTo (name : List Char)
  | chmod (name : List Char) (mode : Nat)
  | analyze (binary : List Char)
deriving DecidableEq

/-- Loop body of `process_cli_agent` (`src/hoho/decompiler.py` lines
89-108) for one asset: match the platform list against the lower-cased
name, download, then either extract and analyze every executable found in
the extraction tree, or `chmod(0o755)` and analyze the raw binary. -/
def processAsset (env : PipelineEnv) (platforms : List (List Char))
    (a : List Char) : List Event :=
  if matchesPlatform platforms a then
    Event.download a ::
      (if env.downloadOk a then
        (if isArchiveName a then
          Event.extractTo a ::
            (if extract_with_unpack_tools env.hasOuch env.toolOk a then
              env.executables.map Event.analyze
            else [])
        else [Event.chmod a 0o755, Event.analyze a])
      else [])
  else []

/-- The whole `for asset in release_data.get("assets", [])` loop. -/
def processAssets (env : PipelineEnv) (platforms : List (List Char)) :
    List (List Char) → List Event
  | [] => []
  | a :: rest => processAsset env platforms a ++ processAssets env platforms rest

/-- Embedding of `process_cli_agent` (`src/hoho/decompiler.py` lines
78-114): the `try` block catches every exception, prints it and returns
`False`, so the embedded function always returns `Except.ok`; the value is
the returned boolean together with the events performed. -/
def process_cli_agent (env : PipelineEnv) (platforms : List (List Char)) :
    Except (List Char) (Bool × List Event) :=
  match env.fetch with
  | .netError => .ok (false, [])
  | .okNoAssets => .ok (true, [])
  | .ok assets => .ok (true, processAssets env platforms assets)

/-- A directory path as a list of segments relative to the project root. -/
abbrev DirPath := List (List Char)

/-- One entry of `CLI_AGENTS` from `src/hoho/glb.py`. -/
structure AgentConfig where
  name : List Char
  repo : List Char
  platforms : List (List Char)
  output_dir : DirPath
deriving DecidableEq

/-- `CLI_AGENTS` from `src/hoho/glb.py` lines 15-37. -/
def CLI_AGENTS : List AgentConfig :=
  [⟨"claude-code".data, "anthropics/claude-code".data,
    ["linux".data, "darwin".data, "win32".data],
    ["decomp".data, "claude-code".data]⟩,
   ⟨"openai-codex".data, "openai/openai-python".data,
    ["universal".data],
    ["decomp".data, "openai-codex".data]⟩,
   ⟨"gemini-cli".data, "google/generative-ai-python".data,
    ["universal".data],
    ["decomp".data, "gemini-cli".data]⟩]

/-- `DECOMP_DIR`, `CACHE_DIR`, `TEMP_DIR` from `src/hoho/glb.py`. -/
def DECOMP_DIR : DirPath := ["decomp".data]

def CACHE_DIR : DirPath := [".cache".data]

def TEMP_DIR : DirPath := [".tmp".data]

/-- Create one directory if absent (the filesystem is the list of existing
directories, in creation order). -/
def insertDir (fs : List DirPath) (d : DirPath) : List DirPath :=
  if d ∈ fs then fs else fs ++ [d]

/-- The nonempty prefixes of a path, shortest first: what
`mkdir(parents=True, exist_ok=True)` creates. -/
def pathSteps (d : DirPath) : List DirPath :=
  (List.range d.length).map (fun i => d.take (i + 1))

/-- Embedding of `Path.mkdir(exist_ok=True, parents=True)`. -/
def mkdirP (fs : List DirPath) (d : DirPath) : List DirPath :=
  (pathSteps d).foldl insertDir fs

/-- The directories `ensure_directories` (`src/hoho/glb.py` lines 52-59)
creates, in order. -/
def ENSURED_DIRS : List DirPath :=
  [DECOMP_DIR, CACHE_DIR, TEMP_DIR] ++ CLI_AGENTS.map AgentConfig.output_dir

/-- Embedding of `ensure_directories`. -/
def ensure_directories (fs : List DirPath) : List DirPath :=
  ENSURED_DIRS.foldl mkdirP fs

/-- A concrete host for witnesses: every analysis tool present, every run
exits zero with stdout `OUT`. -/
def envAllTools : AnalysisEnv := ⟨fun _ => true, fun _ => some "OUT".data⟩

/-- A concrete host for witnesses: no analysis tool present. -/
def envNoTools : AnalysisEnv := ⟨fun _ => false, fun _ => none⟩

/-- A concrete pipeline state for witnesses: the release carries the two
assets of the spec's end-to-end scenario. -/
def envDemo : PipelineEnv :=
  ⟨FetchOutcome.ok ["demo-linux.tar.gz".data, "demo-darwin.tar.gz".data],
   fun _ => true, true, fun _ => true, []⟩

/-- A concrete pipeline state for witnesses: one raw (non-archive) asset. -/
def envRawBin : PipelineEnv :=
  ⟨FetchOutcome.ok ["demo-bin-linux".data], fun _ => true, false,
   fun _ => true, []⟩

/-- A concrete pipeline state for witnesses: the release fetch raises. -/
def envNetErr : PipelineEnv :=
  ⟨FetchOutcome.netError, fun _ => true, false, fun _ => true, []⟩

lemma strIn_iff {p q : List Char} : strIn p q = true ↔ p <:+: q :=
  decide_eq_true_iff

lemma pyLowerStr_eq_self {p : List Char} (h : ∀ c ∈ p, pyLower c = c) :
    pyLowerStr p = p :=
  (List.map_congr_left h).trans (List.map_id p)

lemma lastDotIdx_none_no_dot {l : List Char} (h : lastDotIdx l = none) :
    ∀ c ∈ l, c ≠ '.' := by
  induction l with
  | nil => intro c hc; simp at hc
  | cons a l ih =>
    intro c hc
    rw [lastDotIdx] at h
    cases hm : lastDotIdx l with
    | some j => rw [hm] at h; simp at h
    | none =>
      rw [hm] at h
      by_cases ha : a = '.'
      · rw [if_pos ha] at h; simp at h
      · rw [if_neg ha] at h
        rcases List.mem_cons.mp hc with rfl | hc
        · exact ha
        · exact ih hm c hc

lemma lastDotIdx_tail_no_dot {l : List Char} {i : Nat}
    (h : lastDotIdx l = some i) : ∀ c ∈ l.drop (i + 1), c ≠ '.' := by
  induction l generalizing i with
  | nil => simp [lastDotIdx] at h
  | cons a l ih =>
    intro c hc
    rw [lastDotIdx] at h
    cases hm : lastDotIdx l with
    | some j =>
      rw [hm] at h
      have hi : i = j + 1 := by
        have := h; simp at this; omega
      subst hi
      rw [List.drop_succ_cons] at hc
      exact ih hm c hc
    | none =>
      rw [hm] at h
      by_cases ha : a = '.'
      · rw [if_pos ha] at h
        have hi : i = 0 := by
          have := h; simp at this; omega
        subst hi
        rw [List.drop_succ_cons, List.drop_zero] at hc
        exact lastDotIdx_none_no_dot hm c hc
      · rw [if_neg ha] at h; simp at h

lemma pySuffix_suffix (name : List Char) : pySuffix name <:+ name := by
  unfold pySuffix
  cases hm : lastDotIdx name with
  | none => exact List.nil_suffix
  | some i =>
    show (if 0 < i ∧ i < name.length - 1 then name.drop i else []) <:+ name
    by_cases hcond : 0 < i ∧ i < name.length - 1
    · rw [if_pos hcond]; exact List.drop_suffix i name
    · rw [if_neg hcond]; exact List.nil_suffix

lemma pySuffix_ne_targz (name : List Char) :
    pySuffix name ≠ ".tar.gz".data := by
  unfold pySuffix
  cases hm : lastDotIdx name with
  | none =>
    show ([] : List Char) ≠ ".tar.gz".data
    decide
  | some i =>
    show (if 0 < i ∧ i < name.length - 1 then name.drop i else []) ≠ ".tar.gz".data
    by_cases hcond : 0 < i ∧ i < name.length - 1
    · rw [if_pos hcond]
      intro heq
      have hnd : ∀ c ∈ name.drop (i + 1), c ≠ '.' := lastDotIdx_tail_no_dot hm
      have hdd : name.drop (i + 1) = (name.drop i).drop 1 := by
        rw [List.drop_drop]
      rw [heq] at hdd
      exact hnd '.' (by rw [hdd]; decide) rfl
    · rw [if_neg hcond]; decide

lemma matchesPlatform_iff_caseInsensSub {platforms : List (List Char)}
    (n : List Char) (hlow : ∀ p ∈ platforms, pyLowerStr p = p) :
    matchesPlatform platforms n = true ↔ ∃ p ∈ platforms, caseInsensSub p n := by
  unfold matchesPlatform
  rw [List.any_eq_true]
  constructor
  · rintro ⟨p, hp, hin⟩
    exact ⟨p, hp, by unfold caseInsensSub; rw [hlow p hp]; exact strIn_iff.mp hin⟩
  · rintro ⟨p, hp, hci⟩
    refine ⟨p, hp, strIn_iff.mpr ?_⟩
    unfold caseInsensSub at hci
    rwa [hlow p hp] at hci

lemma download_mem_processAsset {env : PipelineEnv} {pl : List (List Char)}
    {a n : List Char} :
    Event.download n ∈ processAsset env pl a ↔
      (matchesPlatform pl a = true ∧ n = a) := by
  unfold processAsset
  split_ifs with hm hd ha he <;> simp_all [List.mem_map]

lemma extractTo_mem_processAsset {env : PipelineEnv} {pl : List (List Char)}
    {a n : List Char} :
    Event.extractTo n ∈ processAsset env pl a ↔
      (matchesPlatform pl a = true ∧ env.downloadOk a = true ∧
        isArchiveName a = true ∧ n = a) := by
  unfold processAsset
  split_ifs with hm hd ha he <;> simp_all [List.mem_map]

lemma chmod_mem_processAsset {env : PipelineEnv} {pl : List (List Char)}
    {a n : List Char} {m : Nat} :
    Event.chmod n m ∈ processAsset env pl a ↔
      (matchesPlatform pl a = true ∧ env.downloadOk a = true ∧
        isArchiveName a = false ∧ n = a ∧ m = 0o755) := by
  unfold processAsset
  split_ifs with hm hd ha he <;> simp_all [List.mem_map]

lemma processAsset_eq_nil {env : PipelineEnv} {pl : List (List Char)}
    {a : List Char} (hm : matchesPlatform pl a = false) :
    processAsset env pl a = [] := by
  unfold processAsset
  rw [if_neg (by rw [hm]; exact Bool.false_ne_true)]

lemma processAsset_raw {env : PipelineEnv} {pl : List (List Char)}
    {a : List Char} (hm : matchesPlatform pl a = true)
    (hd : env.downloadOk a = true) (ha : isArchiveName a = false) :
    processAsset env pl a =
      [Event.download a, Event.chmod a 0o755, Event.analyze a] := by
  unfold processAsset
  rw [if_pos hm, if_pos hd, if_neg (by rw [ha]; exact Bool.false_ne_true)]

lemma mem_processAssets {env : PipelineEnv} {pl : List (List Char)}
    {assets : List (List Char)} {e : Event} :
    e ∈ processAssets env pl assets ↔
      ∃ a ∈ assets, e ∈ processAsset env pl a := by
  induction assets with
  | nil => simp [processAssets]
  | cons a rest ih =>
    rw [processAssets, List.mem_append, ih]
    simp [List.mem_cons]

lemma processAssets_eq_nil {env : PipelineEnv} {pl : List (List Char)}
    {assets : List (List Char)}
    (h : ∀ a ∈ assets, matchesPlatform pl a = false) :
    processAssets env pl assets = [] := by
  induction assets with
  | nil => rfl
  | cons a rest ih =>
    rw [processAssets, processAsset_eq_nil (h a (List.mem_cons_self a rest)),
      List.nil_append]
    exact ih fun b hb => h b (List.mem_cons_of_mem a hb)

lemma headD_append_single {t : List (List Char)} {b : List Char}
    (h : t ≠ []) : (t ++ [b]).headD [] = t.headD [] := by
  cases t with
  | nil => exact absurd rfl h
  | cons x xs => rfl

lemma toolStep_eq_some_iff {env : AnalysisEnv} {cmd : List (List Char)}
    {nm content : List Char} :
    toolStep env cmd = some (nm, content) ↔
      (env.present (cmd.headD []) = true ∧ env.run cmd = some content ∧
        nm = cmd.headD [] ++ "_output.txt".data) := by
  unfold toolStep
  by_cases hp : env.present (cmd.headD []) = true
  · rw [if_pos hp]
    cases hr : env.run cmd with
    | none => simp [hr, hp]
    | some out =>
      simp only [hr, hp, true_and, Option.some.injEq, Prod.mk.injEq]
      constructor
      · rintro ⟨h1, h2⟩; exact ⟨h2, h1.symm⟩
      · rintro ⟨h1, h2⟩; exact ⟨h2.symm, h1⟩
  · rw [if_neg hp]
    constructor
    · intro h; exact absurd h (by simp)
    · rintro ⟨h1, -, -⟩; exact absurd h1 hp

lemma nodup_filterMap_fst {α β γ : Type} (g : α → Option (β × γ))
    (fname : α → β) (l : List α) (hg : ∀ a p, g a = some p → p.1 = fname a)
    (hnd : (l.map fname).Nodup) : ((l.filterMap g).map Prod.fst).Nodup := by
  induction l with
  | nil => simp
  | cons a l ih =>
    rw [List.map_cons, List.nodup_cons] at hnd
    cases hga : g a with
    | none => rw [List.filterMap_cons_none hga]; exact ih hnd.2
    | some p =>
      rw [List.filterMap_cons_some hga, List.map_cons, List.nodup_cons]
      refine ⟨?_, ih hnd.2⟩
      intro hmem
      obtain ⟨q, hq, hq1⟩ := List.mem_map.mp hmem
      obtain ⟨b, hb, hgb⟩ := List.mem_filterMap.mp hq
      exact hnd.1 (List.mem_map.mpr
        ⟨b, hb, by rw [← hg b q hgb, hq1, hg a p hga]⟩)

lemma length_filterMap_of_all_some {α β : Type} (g : α → Option β)
    (l : List α) (h : ∀ a ∈ l, (g a).isSome) :
    (l.filterMap g).length = l.length := by
  induction l with
  | nil => rfl
  | cons a l ih =>
    cases hga : g a with
    | none =>
      exact absurd (h a (List.mem_cons_self a l)) (by rw [hga]; simp)
    | some b =>
      rw [List.filterMap_cons_some hga, List.length_cons, List.length_cons,
        ih fun x hx => h x (List.mem_cons_of_mem a hx)]

lemma processAsset_infix_processAssets (env : PipelineEnv)
    (pl : List (List Char)) {assets : List (List Char)} {a : List Char}
    (ha : a ∈ assets) :
    processAsset env pl a <:+: processAssets env pl assets := by
  induction assets with
  | nil => simp at ha
  | cons b rest ih =>
    rcases List.mem_cons.mp ha with rfl | ha
    · exact ⟨[], processAssets env pl rest, by rw [processAssets]; simp⟩
    · obtain ⟨s, t, hst⟩ := ih ha
      exact ⟨processAsset env pl b ++ s, t, by
        rw [processAssets, ← hst]; simp [List.append_assoc]⟩

lemma mem_insertDir_of_mem {fs : List DirPath} {x : DirPath} (d : DirPath)
    (h : x ∈ fs) : x ∈ insertDir fs d := by
  unfold insertDir
  split_ifs with hd
  · exact h
  · exact List.mem_append_left _ h

lemma mem_insertDir_self {fs : List DirPath} (d : DirPath) :
    d ∈ insertDir fs d := by
  unfold insertDir
  split_ifs with hd
  · exact hd
  · exact List.mem_append_right _ (List.mem_singleton.mpr rfl)

lemma insertDir_of_mem {fs : List DirPath} {d : DirPath} (h : d ∈ fs) :
    insertDir fs d = fs := if_pos h

lemma nodup_insertDir {fs : List DirPath} (d : DirPath) (h : fs.Nodup) :
    (insertDir fs d).Nodup := by
  unfold insertDir
  split_ifs with hd
  · exact h
  · rw [List.nodup_append]
    exact ⟨h, List.nodup_singleton d,
      fun x hx hxd => hd (by rwa [← List.mem_singleton.mp hxd])⟩

lemma mem_foldl_insertDir_of_mem {x : DirPath} :
    ∀ (l : List DirPath) (fs : List DirPath), x ∈ fs →
      x ∈ l.foldl insertDir fs
  | [], _, h => h
  | d :: l, fs, h =>
    mem_foldl_insertDir_of_mem l (insertDir fs d) (mem_insertDir_of_mem d h)

lemma mem_foldl_insertDir_self {x : DirPath} :
    ∀ (l : List DirPath) (fs : List DirPath), x ∈ l →
      x ∈ l.foldl insertDir fs
  | [], _, h => absurd h (List.not_mem_nil x)
  | d :: l, fs, h => by
    rcases List.mem_cons.mp h with rfl | h
    · exact mem_foldl_insertDir_of_mem l _ (mem_insertDir_self x)
    · exact mem_foldl_insertDir_self l _ h

lemma foldl_insertDir_of_all_mem :
    ∀ (l : List DirPath) (fs : List DirPath), (∀ x ∈ l, x ∈ fs) →
      l.foldl insertDir fs = fs
  | [], _, _ => rfl
  | d :: l, fs, h => by
    rw [List.foldl_cons, insertDir_of_mem (h d (List.mem_cons_self d l))]
    exact foldl_insertDir_of_all_mem l fs
      fun x hx => h x (List.mem_cons_of_mem d hx)

lemma nodup_foldl_insertDir :
    ∀ (l : List DirPath) (fs : List DirPath), fs.Nodup →
      (l.foldl insertDir fs).Nodup
  | [], _, h => h
  | d :: l, fs, h =>
    nodup_foldl_insertDir l (insertDir fs d) (nodup_insertDir d h)

lemma mem_mkdirP_of_mem {fs : List DirPath} {x : DirPath} (d : DirPath)
    (h : x ∈ fs) : x ∈ mkdirP fs d :=
  mem_foldl_insertDir_of_mem _ _ h

lemma pathSteps_mem_mkdirP {fs : List DirPath} {x : DirPath} {d : DirPath}
    (h : x ∈ pathSteps d) : x ∈ mkdirP fs d :=
  mem_foldl_insertDir_self _ _ h

lemma mkdirP_of_all_mem {fs : List DirPath} {d : DirPath}
    (h : ∀ x ∈ pathSteps d, x ∈ fs) : mkdirP fs d = fs :=
  foldl_insertDir_of_all_mem _ _ h

lemma nodup_mkdirP {fs : List DirPath} (d : DirPath) (h : fs.Nodup) :
    (mkdirP fs d).Nodup :=
  nodup_foldl_insertDir _ _ h

lemma mem_foldl_mkdirP_of_mem {x : DirPath} :
    ∀ (l : List DirPath) (fs : List DirPath), x ∈ fs →
      x ∈ l.foldl mkdirP fs
  | [], _, h => h
  | d :: l, fs, h =>
    mem_foldl_mkdirP_of_mem l (mkdirP fs d) (mem_mkdirP_of_mem d h)

lemma pathSteps_mem_foldl_mkdirP {x : DirPath} :
    ∀ (l : List DirPath) (fs : List DirPath) (d : DirPath), d ∈ l →
      x ∈ pathSteps d → x ∈ l.foldl mkdirP fs
  | [], _, d, hd, _ => absurd hd (List.not_mem_nil d)
  | b :: l, fs, d, hd, hx => by
    rcases List.mem_cons.mp hd with rfl | hd
    · exact mem_foldl_mkdirP_of_mem l _ (pathSteps_mem_mkdirP hx)
    · exact pathSteps_mem_foldl_mkdirP l _ d hd hx

lemma foldl_mkdirP_of_all_mem :
    ∀ (l : List DirPath) (fs : List DirPath),
      (∀ d ∈ l, ∀ x ∈ pathSteps d, x ∈ fs) → l.foldl mkdirP fs = fs
  | [], _, _ => rfl
  | d :: l, fs, h => by
    rw [List.foldl_cons, mkdirP_of_all_mem (h d (List.mem_cons_self d l))]
    exact foldl_mkdirP_of_all_mem l fs
      fun b hb x hx => h b (List.mem_cons_of_mem d hb) x hx

lemma nodup_foldl_mkdirP :
    ∀ (l : List DirPath) (fs : List DirPath), fs.Nodup →
      (l.foldl mkdirP fs).Nodup
  | [], _, h => h
  | d :: l, fs, h => nodup_foldl_mkdirP l (mkdirP fs d) (nodup_mkdirP d h)

lemma pathSteps_mem_ensure {fs : List DirPath} {x d : DirPath}
    (hd : d ∈ ENSURED_DIRS) (hx : x ∈ pathSteps d) :
    x ∈ ensure_directories fs :=
  pathSteps_mem_foldl_mkdirP _ _ d hd hx

lemma self_mem_pathSteps {d : DirPath} (h : d ≠ []) : d ∈ pathSteps d := by
  unfold pathSteps
  refine List.mem_map.mpr ⟨d.length - 1, List.mem_range.mpr ?_, ?_⟩
  · have := List.length_pos.mpr h; omega
  · have hlen : d.length - 1 + 1 = d.length := by
      have := List.length_pos.mpr h; omega
    rw [hlen, List.take_length]

lemma self_mem_ensure {fs : List DirPath} {x : DirPath}
    (hd : x ∈ ENSURED_DIRS) (hne : x ≠ []) : x ∈ ensure_directories fs :=
  pathSteps_mem_ensure hd (self_mem_pathSteps hne)


/-- Claim C1: for every platform tag P in a target's configured platform
list and every asset name N in the fetched release metadata, asset
selection processes N for download iff some configured tag is a
case-insensitive substring of N; all matching assets are processed, and
zero matches yields no downstream work and no error. -/
theorem C1_asset_selection (env : PipelineEnv)
    (platforms assets : List (List Char))
    (hp : platforms ∈ CLI_AGENTS.map AgentConfig.platforms)
    (hf : env.fetch = FetchOutcome.ok assets) :
    process_cli_agent env platforms =
      Except.ok (true, processAssets env platforms assets) ∧
    (∀ n, Event.download n ∈ processAssets env platforms assets ↔
      (n ∈ assets ∧ ∃ p ∈ platforms, caseInsensSub p n)) ∧
    ((∀ n ∈ assets, ∀ p ∈ platforms, ¬ caseInsensSub p n) →
      processAssets env platforms assets = []) := by
  have hp' : platforms = ["linux".data, "darwin".data, "win32".data] ∨
      platforms = ["universal".data] := by
    simpa [CLI_AGENTS] using hp
  have hlow : ∀ p ∈ platforms, pyLowerStr p = p := by
    rcases hp' with rfl | rfl <;> decide
  refine ⟨?_, ?_, ?_⟩
  · unfold process_cli_agent; rw [hf]
  · intro n
    rw [mem_processAssets]
    constructor
    · rintro ⟨a, ha, hmem⟩
      obtain ⟨hm, rfl⟩ := download_mem_processAsset.mp hmem
      exact ⟨ha, (matchesPlatform_iff_caseInsensSub _ hlow).mp hm⟩
    · rintro ⟨hn, hex⟩
      exact ⟨n, hn, download_mem_processAsset.mpr
        ⟨(matchesPlatform_iff_caseInsensSub _ hlow).mpr hex, rfl⟩⟩
  · intro h
    apply processAssets_eq_nil
    intro a ha
    cases hb : matchesPlatform platforms a with
    | false => rfl
    | true =>
      obtain ⟨p, hpm, hci⟩ := (matchesPlatform_iff_caseInsensSub _ hlow).mp hb
      exact absurd hci (h a ha p hpm)

/-- Witness for C1 at the spec's end-to-end scenario: tag `linux` selects
`demo-linux.tar.gz` out of the two-asset release. -/
theorem C1_asset_selection_witness :
    Event.download "demo-linux.tar.gz".data ∈
      processAssets envDemo ["linux".data, "darwin".data, "win32".data]
        ["demo-linux.tar.gz".data, "demo-darwin.tar.gz".data] :=
  ((C1_asset_selection envDemo
      ["linux".data, "darwin".data, "win32".data]
      ["demo-linux.tar.gz".data, "demo-darwin.tar.gz".data]
      (by decide) rfl).2.1 "demo-linux.tar.gz".data).mpr (by decide)

/-- Claim C2 (code bug): the claim says a filename ending in `.tar.gz`
reaches the tar tool when ouch is absent, but `Path.suffix` is only the
last extension (`.gz` here), so the `== ".tar.gz"` comparison in
`extract_with_unpack_tools` never holds: on `demo-linux.tar.gz` without
ouch no tool is invoked, and in general the tar branch is unreachable. -/
theorem C2_tar_branch_unreachable :
    extractCmd false "demo-linux.tar.gz".data = none ∧
    (∀ hasOuch name, extractCmd hasOuch name = none ∨
      extractCmd hasOuch name = some UnpackCmd.ouch ∨
      extractCmd hasOuch name = some UnpackCmd.unzip) := by
  refine ⟨by decide, fun hasOuch name => ?_⟩
  unfold extractCmd
  cases hasOuch with
  | true => right; left; rw [if_pos rfl]
  | false =>
    rw [if_neg Bool.false_ne_true, if_neg (pySuffix_ne_targz name)]
    by_cases hz : pySuffix name = ".zip".data
    · rw [if_pos hz]; right; right; rfl
    · rw [if_neg hz]; left; rfl

/-- Claim C3: with no ouch on the host and a filename ending in neither
`.tar.gz` nor `.zip`, `extract_with_unpack_tools` invokes no tool (hence
creates no extracted files) and returns false. -/
theorem C3_unrecognized_extension_fails (toolOk : UnpackCmd → Bool)
    (name : List Char) (ht : ¬ (".tar.gz".data <:+ name))
    (hz : ¬ (".zip".data <:+ name)) :
    extractCmd false name = none ∧
    extract_with_unpack_tools false toolOk name = false := by
  have hcmd : extractCmd false name = none := by
    unfold extractCmd
    rw [if_neg Bool.false_ne_true, if_neg (pySuffix_ne_targz name),
      if_neg fun heq => hz (by rw [← heq]; exact pySuffix_suffix name)]
  exact ⟨hcmd, by unfold extract_with_unpack_tools; rw [hcmd]⟩

/-- Witness for C3 at the concrete archive name `demo.7z`. -/
theorem C3_unrecognized_extension_fails_witness :
    extractCmd false "demo.7z".data = none ∧
    extract_with_unpack_tools false (fun _ => true) "demo.7z".data = false :=
  C3_unrecognized_extension_fails (fun _ => true) "demo.7z".data
    (by decide) (by decide)

/-- Claim C4: the analysis runner writes, per tool of the fixed ordered
list, exactly one file named after the tool holding its captured stdout
when the tool is present and exits zero, no file when it is absent or
exits non-zero (later tools unaffected), and with every tool present and
succeeding exactly one file per tool. -/
theorem C4_analysis_runner_outputs (env : AnalysisEnv) (binary : List Char) :
    ((toolOutputs env binary).map Prod.fst).Nodup ∧
    (∀ nm content, (nm, content) ∈ toolOutputs env binary ↔
      ∃ t ∈ DECOMPILER_TOOLS, env.present (t.headD []) = true ∧
        env.run (t ++ [binary]) = some content ∧
        nm = t.headD [] ++ "_output.txt".data) ∧
    ((∀ t ∈ DECOMPILER_TOOLS, env.present (t.headD []) = true ∧
        (env.run (t ++ [binary])).isSome) →
      (toolOutputs env binary).length = DECOMPILER_TOOLS.length) := by
  have hne : ∀ t ∈ DECOMPILER_TOOLS, t ≠ ([] : List (List Char)) := by decide
  refine ⟨?_, ?_, ?_⟩
  · apply nodup_filterMap_fst (toolStep env)
      (fun cmd => cmd.headD [] ++ "_output.txt".data)
    · intro a p hp
      cases p with
      | mk nm content => exact (toolStep_eq_some_iff.mp hp).2.2
    · simp [analysisCmds, DECOMPILER_TOOLS]
  · intro nm content
    unfold toolOutputs
    rw [List.mem_filterMap]
    constructor
    · rintro ⟨cmd, hcmd, hstep⟩
      obtain ⟨t, ht, rfl⟩ := List.mem_map.mp hcmd
      obtain ⟨hpres, hrun, hnm⟩ := toolStep_eq_some_iff.mp hstep
      rw [headD_append_single (hne t ht)] at hpres hnm
      exact ⟨t, ht, hpres, hrun, hnm⟩
    · rintro ⟨t, ht, hpres, hrun, hnm⟩
      refine ⟨t ++ [binary], List.mem_map.mpr ⟨t, ht, rfl⟩,
        toolStep_eq_some_iff.mpr ?_⟩
      rw [headD_append_single (hne t ht)]
      exact ⟨hpres, hrun, hnm⟩
  · intro h
    unfold toolOutputs
    rw [length_filterMap_of_all_some]
    · unfold analysisCmds; rw [List.length_map]
    · intro cmd hcmd
      obtain ⟨t, ht, rfl⟩ := List.mem_map.mp hcmd
      obtain ⟨hpres, hrun⟩ := h t ht
      unfold toolStep
      rw [headD_append_single (hne t ht), if_pos hpres]
      cases hr : env.run (t ++ [binary]) with
      | none => rw [hr] at hrun; simp at hrun
      | some out => rfl

/-- Witness for C4: with every tool present and succeeding, the runner
writes exactly one file per configured tool. -/
theorem C4_analysis_runner_outputs_witness :
    (toolOutputs envAllTools "demo-bin".data).length =
      DECOMPILER_TOOLS.length :=
  (C4_analysis_runner_outputs envAllTools "demo-bin".data).2.2 (by decide)

/-- Claim C5: with no analysis tool present on the host the runner writes
zero output files and still returns normally (with `True`). -/
theorem C5_no_tools_no_files (env : AnalysisEnv) (binary outdir : List Char)
    (h : ∀ nme, env.present nme = false) :
    (decompile_binary env binary outdir).files = [] ∧
    (decompile_binary env binary outdir).retval = true := by
  refine ⟨?_, rfl⟩
  show toolOutputs env binary = []
  unfold toolOutputs
  rw [List.filterMap_eq_nil_iff]
  intro cmd hcmd
  unfold toolStep
  rw [if_neg (by rw [h (cmd.headD [])]; exact Bool.false_ne_true)]

/-- Witness for C5 on a host with no tools at all. -/
theorem C5_no_tools_no_files_witness :
    (decompile_binary envNoTools "demo-bin".data "analysis".data).files = [] ∧
    (decompile_binary envNoTools "demo-bin".data "analysis".data).retval =
      true :=
  C5_no_tools_no_files envNoTools "demo-bin".data "analysis".data
    (fun _ => rfl)

/-- Claim C6: when the release fetch raises (network failure) or the
remote answers with a JSON body carrying no assets (non-success status),
`process_cli_agent` returns a boolean normally, performs no downstream
work, and propagates no exception. -/
theorem C6_fetch_failure_graceful (env : PipelineEnv)
    (platforms : List (List Char))
    (h : env.fetch = FetchOutcome.netError ∨
      env.fetch = FetchOutcome.okNoAssets) :
    ∃ b, process_cli_agent env platforms = Except.ok (b, []) := by
  unfold process_cli_agent
  rcases h with h | h <;> rw [h]
  · exact ⟨false, rfl⟩
  · exact ⟨true, rfl⟩

/-- Witness for C6 at a failing network call. -/
theorem C6_fetch_failure_graceful_witness :
    ∃ b, process_cli_agent envNetErr [] = Except.ok (b, []) :=
  C6_fetch_failure_graceful envNetErr [] (Or.inl rfl)

/-- Claim C7: an asset is routed to the archive expander iff its
lower-cased name contains one of the fixed archive extensions anywhere
(substring containment, not true suffix matching): `demo.zip-linux` is
archive-classified although no extension is a suffix of it. -/
theorem C7_archive_routing_by_substring :
    (∀ name, isArchiveName name = true ↔
      ∃ e ∈ ARCHIVE_EXTENSIONS, e <:+: pyLowerStr name) ∧
    (∀ env pl a n, Event.extractTo n ∈ processAsset env pl a ↔
      (matchesPlatform pl a = true ∧ env.downloadOk a = true ∧
        isArchiveName a = true ∧ n = a)) ∧
    isArchiveName "demo.zip-linux".data = true ∧
    ARCHIVE_EXTENSIONS.all
      (fun e => !(decide (e <:+ "demo.zip-linux".data))) = true := by
  refine ⟨?_, ?_, by decide, by decide⟩
  · intro name
    unfold isArchiveName
    rw [List.any_eq_true]
    constructor
    · rintro ⟨e, he, hin⟩; exact ⟨e, he, strIn_iff.mp hin⟩
    · rintro ⟨e, he, hci⟩; exact ⟨e, he, strIn_iff.mpr hci⟩
  · intro env pl a n
    exact extractTo_mem_processAsset

/-- Witness for C7: the substring-classified asset from the theorem. -/
theorem C7_archive_routing_by_substring_witness :
    isArchiveName "demo.zip-linux".data = true :=
  C7_archive_routing_by_substring.2.2.1

/-- Claim C8: directory bootstrapping is idempotent: running
`ensure_directories` again changes nothing, it never duplicates existing
directories, and every configured target's destination directory exists
afterwards, the three destinations being pairwise distinct. -/
theorem C8_ensure_directories_idempotent (fs : List DirPath) :
    ensure_directories (ensure_directories fs) = ensure_directories fs ∧
    (fs.Nodup → (ensure_directories fs).Nodup) ∧
    (∀ a ∈ CLI_AGENTS, a.output_dir ∈ ensure_directories fs) ∧
    (CLI_AGENTS.map AgentConfig.output_dir).Nodup := by
  refine ⟨?_, ?_, ?_, by decide⟩
  · exact foldl_mkdirP_of_all_mem _ _ fun d hd x hx => pathSteps_mem_ensure hd hx
  · exact fun h => nodup_foldl_mkdirP _ _ h
  · intro a ha
    simp only [CLI_AGENTS, List.mem_cons, List.not_mem_nil, or_false] at ha
    rcases ha with rfl | rfl | rfl <;>
      exact self_mem_ensure (by decide) (by decide)

/-- Witness for C8 starting from an empty filesystem. -/
theorem C8_ensure_directories_idempotent_witness :
    ensure_directories (ensure_directories []) = ensure_directories [] ∧
    (ensure_directories ([] : List DirPath)).Nodup :=
  ⟨(C8_ensure_directories_idempotent []).1,
   (C8_ensure_directories_idempotent []).2.1 List.nodup_nil⟩

/-- Claim C9: `decompile_binary` returns `True` for every host state
(zero tools present or all of them failing included) and always creates
the output directory, so its result never signals analysis failure. -/
theorem C9_decompile_always_true (env : AnalysisEnv)
    (binary outdir : List Char) :
    (decompile_binary env binary outdir).retval = true ∧
    outdir ∈ (decompile_binary env binary outdir).dirsCreated :=
  ⟨rfl, List.mem_singleton.mpr rfl⟩

/-- Claim C10: a selected, downloaded, non-archive asset is chmod-ed to
`0o755` and then analyzed (in that order); chmod events happen for
exactly these assets, so archive-classified assets keep their permission
bits. -/
theorem C10_chmod_raw_binaries (env : PipelineEnv)
    (platforms assets : List (List Char)) :
    (∀ n m, Event.chmod n m ∈ processAssets env platforms assets ↔
      (n ∈ assets ∧ matchesPlatform platforms n = true ∧
        env.downloadOk n = true ∧ isArchiveName n = false ∧ m = 0o755)) ∧
    (∀ a ∈ assets, matchesPlatform platforms a = true →
      env.downloadOk a = true → isArchiveName a = false →
      [Event.chmod a 0o755, Event.analyze a] <:+:
        processAssets env platforms assets) := by
  constructor
  · intro n m
    rw [mem_processAssets]
    constructor
    · rintro ⟨a, ha, hmem⟩
      obtain ⟨hm, hd, hna, rfl, rfl⟩ := chmod_mem_processAsset.mp hmem
      exact ⟨ha, hm, hd, hna, rfl⟩
    · rintro ⟨hn, hm, hd, hna, rfl⟩
      exact ⟨n, hn, chmod_mem_processAsset.mpr ⟨hm, hd, hna, rfl, rfl⟩⟩
  · intro a ha hm hd hna
    obtain ⟨s, t, hst⟩ := processAsset_infix_processAssets env platforms ha
    rw [processAsset_raw hm hd hna] at hst
    exact ⟨s ++ [Event.download a], t, by rw [← hst]; simp⟩

/-- Witness for C10 at a concrete raw-binary asset. -/
theorem C10_chmod_raw_binaries_witness :
    [Event.chmod "demo-bin-linux".data 0o755,
     Event.analyze "demo-bin-linux".data] <:+:
      processAssets envRawBin ["linux".data] ["demo-bin-linux".data] :=
  (C10_chmod_raw_binaries envRawBin ["linux".data]
      ["demo-bin-linux".data]).2
    "demo-bin-linux".data (by decide) (by decide) (by decide) (by decide)
